import Mathlib

/-!
Verification development for the recipe-assistant retrieval and ranking engine.

Shallow embedding of `src/recipe_assistant/retrieval.py`,
`src/recipe_assistant/old_rag.py` and `src/recipe_assistant/rag.py`.

Modelling conventions:
- Python dicts for recipe documents become the `Doc` structure; a field that
  may be absent from the dict is an `Option`.
- Python `int(x)` on a time-field value is `pyIntOf` (`none` models the raised
  `ValueError`/`TypeError`); plain decimal strings with optional sign and
  surrounding whitespace are the modelled parse domain.
- Python `set`s of tokens become `Finset String`; set operations (`&`, `-=`)
  are order-independent, so this is faithful.
- numpy float vectors are modelled with integer components: the control flow
  of the code (filtering, index selection, argsort order) does not depend on
  the numeric type, only on comparisons and dot products, which are embedded
  exactly over ℤ.
- External oracles (Elasticsearch, the embedding endpoint, the chat LLM) are
  inputs to the embedded functions: the candidate pool returned by lexical
  search, the embedding vector returned for the query, and the text content
  returned by the chat completion are parameters. Functions that call an
  oracle additionally return the number of oracle calls they perform, so that
  short-circuit claims are statable.
-/

/-- A value stored in a time field of a recipe dict: a JSON number, a JSON
string, or JSON null. -/
inductive TimeVal where
  | num (n : Int)
  | str (s : String)
  | null
deriving DecidableEq, Repr

/-- Python whitespace as used by `str.split()` and `int(str)` stripping. -/
def pyIsSpace (c : Char) : Bool :=
  c = ' ' || c = '\t' || c = '\n' || c = '\r' || c = '\x0b' || c = '\x0c'

/-- A regex word character (`\w`), restricted to the ASCII range the corpus
uses: letters, digits and underscore. -/
def pyIsWord (c : Char) : Bool :=
  c.isAlphanum || c = '_'

/-- Parse a list of decimal digit characters to a natural number. -/
def digitsToNat : List Char → Option Nat
  | [] => none
  | cs =>
    if cs.all Char.isDigit then
      some (cs.foldl (fun acc c => acc * 10 + (c.toNat - '0'.toNat)) 0)
    else
      none

/-- Model of Python `int(s)` on a string: strip surrounding whitespace, allow
an optional sign, then require a nonempty run of decimal digits. `none`
models the `ValueError` raised on anything else. -/
def parsePyInt (s : String) : Option Int :=
  let cs := (s.toList.dropWhile pyIsSpace).reverse.dropWhile pyIsSpace |>.reverse
  match cs with
  | '-' :: rest => (digitsToNat rest).map (fun n => -(n : Int))
  | '+' :: rest => (digitsToNat rest).map (fun n => (n : Int))
  | rest => (digitsToNat rest).map (fun n => (n : Int))

/-- Model of Python `int(v)` on a time-field value: numbers pass through,
strings are parsed, `None` raises (`none`). -/
def pyIntOf : TimeVal → Option Int
  | .num n => some n
  | .str s => parsePyInt s
  | .null => none

/-- A recipe document (`_source` dict of an Elasticsearch hit). Fields the
code reads with `.get` are `Option`s; `recipe_name` and `main_ingredients`
are read with `doc[...]` by the rerank code, so they are total here. -/
structure Doc where
  id : Option String := none
  recipe_name : String := ""
  main_ingredients : String := ""
  all_ingredients : Option String := none
  prep_time_minutes : Option TimeVal := none
  cook_time_minutes : Option TimeVal := none
  all_ingredients_vector : Option (List Int) := none
deriving DecidableEq, Repr

/-- `int(doc.get(field, 0))`: a missing field defaults to the integer 0,
a present field goes through Python `int`. -/
def pyTimeField : Option TimeVal → Option Int
  | none => some 0
  | some v => pyIntOf v

/-- The `try` block of `filter_by_max_time` (and of the inline filter in
`old_rag.cover_ingredients_search`): `none` models the raised exception. -/
def totalTimeCalc (d : Doc) : Option Int :=
  match pyTimeField d.prep_time_minutes, pyTimeField d.cook_time_minutes with
  | some a, some b => some (a + b)
  | _, _ => none

/-- `total_time` as computed by the code: the `try` result, or the sentinel
99999 when the conversion raised. -/
def total_time (d : Doc) : Int :=
  (totalTimeCalc d).getD 99999

/-- `retrieval.filter_by_max_time(results, max_time)`. -/
def filter_by_max_time (results : List Doc) (max_time : Option Int) : List Doc :=
  match max_time with
  | none => results
  | some m => results.filter (fun d => total_time d ≤ m)

/-- The identity key of `deduplicate_results`:
`doc.get('id') or (recipe_name, prep, cook)` — the id string when present
and truthy (non-empty), otherwise the name/times tuple. -/
def docKey (d : Doc) : String ⊕ (String × Option TimeVal × Option TimeVal) :=
  match d.id with
  | some s => if s = "" then .inr (d.recipe_name, d.prep_time_minutes, d.cook_time_minutes) else .inl s
  | none => .inr (d.recipe_name, d.prep_time_minutes, d.cook_time_minutes)

/-- Test of `key in seen` on the seen-set, with decidable key equality. -/
def keySeen (k : String ⊕ (String × Option TimeVal × Option TimeVal))
    (seen : List (String ⊕ (String × Option TimeVal × Option TimeVal))) : Bool :=
  seen.any (fun x => x = k)

/-- Loop body of `retrieval.deduplicate_results`, with the `seen` set as an
explicit accumulator. -/
def dedupeAux (seen : List (String ⊕ (String × Option TimeVal × Option TimeVal))) :
    List Doc → List Doc
  | [] => []
  | d :: rest =>
    if keySeen (docKey d) seen then dedupeAux seen rest
    else d :: dedupeAux (docKey d :: seen) rest

/-- `retrieval.deduplicate_results(results)`. -/
def deduplicate_results (results : List Doc) : List Doc :=
  dedupeAux [] results

/-- Whitespace-split of a character list, `str.split()` style: runs of
whitespace delimit tokens and empty tokens are discarded. `acc` holds the
current token's characters in reverse. -/
def splitWsAux : List Char → List Char → List String
  | [], acc => if acc = [] then [] else [String.mk acc.reverse]
  | c :: cs, acc =>
    if pyIsSpace c then
      if acc = [] then splitWsAux cs []
      else String.mk acc.reverse :: splitWsAux cs []
    else splitWsAux cs (c :: acc)

/-- The tokenization expression of the coverage code:
`set(re.sub(r'[^\w\s]', '', x.lower()).replace(',', ' ').split())`.
Lowercase, then the regex deletes every character that is neither a word
character nor whitespace, then commas are replaced by spaces (this step is
kept although the regex already deleted every comma), then whitespace split
into a set. -/
def tokenize (s : String) : Finset String :=
  let lowered := s.toList.map Char.toLower
  let stripped := lowered.filter (fun c => pyIsWord c || pyIsSpace c)
  let replaced := stripped.map (fun c => if c = ',' then ' ' else c)
  (splitWsAux replaced []).toFinset

/-- Token set of a document's ingredient field:
`set(re.sub(r'[^\w\s]', '', str(doc.get('all_ingredients', '')).lower()).replace(',', ' ').split())`. -/
def docIngredients (d : Doc) : Finset String :=
  tokenize (d.all_ingredients.getD "")

/-- `overlap = len(uncovered & ingredients)` for one candidate. -/
def overlap (uncovered : Finset String) (d : Doc) : Nat :=
  (uncovered ∩ docIngredients d).card

/-- The candidate scan of one round of the greedy cover loop, carrying
`best_doc` and `best_overlap` through the `for doc in docs` iteration;
only a strictly larger overlap replaces the current best. -/
def findBestAux (uncovered : Finset String) (best : Option Doc) (bo : Nat) :
    List Doc → Option Doc × Nat
  | [] => (best, bo)
  | d :: rest =>
    if bo < overlap uncovered d then
      findBestAux uncovered (some d) (overlap uncovered d) rest
    else
      findBestAux uncovered best bo rest

/-- One round's scan starting from `best_doc = None`, `best_overlap = 0`. -/
def findBest (uncovered : Finset String) (docs : List Doc) : Option Doc × Nat :=
  findBestAux uncovered none 0 docs

/-- `docs.remove(best_doc)`: drop the first element equal to the given one. -/
def removeFirst (d : Doc) : List Doc → List Doc
  | [] => []
  | x :: xs => if x = d then xs else x :: removeFirst d xs

/-- The greedy cover `while` loop. The first argument counts the remaining
selection capacity (`num_results - len(selected)`), which strictly decreases
on every selecting iteration; the returned list is the `selected`
accumulator. The loop stops when the capacity is exhausted, when `uncovered`
is empty, when `docs` is empty, or when no candidate has positive overlap. -/
def coverLoop : Nat → Finset String → List Doc → List Doc
  | 0, _, _ => []
  | r + 1, uncovered, docs =>
    if uncovered = ∅ ∨ docs = [] then []
    else
      match findBest uncovered docs with
      | (some d, bo) =>
        if 0 < bo then
          d :: coverLoop r (uncovered \ docIngredients d) (removeFirst d docs)
        else []
      | (none, _) => []

/-- `retrieval.es_cover_ingredients_search`, with the candidate pool returned
by `es_basic_search` (an external lexical-search oracle) as a parameter.
Optionally time-filters the pool, runs the greedy cover loop on the query's
token set, and deduplicates the selection. -/
def es_cover_ingredients_search (candidates : List Doc) (query : String)
    (num_results : Nat) (max_time : Option Int) : List Doc :=
  let pool := match max_time with
    | none => candidates
    | some m => filter_by_max_time candidates (some m)
  deduplicate_results (coverLoop num_results (tokenize query) pool)

/-- `np.dot` of two vectors. -/
def dot (a b : List Int) : Int :=
  (List.zipWith (fun x y => x * y) a b).sum

/-- `np.argsort(l)`: the indices of `l` sorted by ascending value. numpy
leaves the relative order of equal values implementation-defined; this
embedding fixes the stable order. -/
def argsort (l : List Int) : List Nat :=
  List.insertionSort (fun i j => l.getD i 0 ≤ l.getD j 0) (List.range l.length)

/-- The Python slice `l[-k:]`: the last `k` elements — except that `l[-0:]`
is the whole list. -/
def lastSlice (l : List Nat) (k : Nat) : List Nat :=
  if k = 0 then l else l.drop (l.length - k)

/-- `doc.pop('all_ingredients_vector', None)`, as a pure field update. -/
def stripVector (d : Doc) : Doc :=
  { d with all_ingredients_vector := none }

/-- Lines 156–167 of `retrieval.es_cover_then_hybrid_search`: the hybrid
rerank stage. `cover_results` is the candidate list entering the stage and
`query_emb` the embedding-oracle response for the query; the second
component counts embedding-oracle calls (`get_embedding` is only reached
when the candidate list is non-empty). Embeddings are collected only from
candidates that carry `all_ingredients_vector`, similarities are dot
products, and `top_indices` — positions in the similarity list — are used
to index the unfiltered `cover_results` (the out-of-range lookup of
`List.get?` cannot occur, since every index is below the length of the
similarity list, which is at most the length of `cover_results`). -/
def hybridStage (cover_results : List Doc) (query_emb : List Int)
    (hybrid_top_k : Nat) (num_results : Nat) : List Doc × Nat :=
  if cover_results = [] then ([], 0)
  else
    let cover_embeddings :=
      (cover_results.filter (fun d => d.all_ingredients_vector.isSome)).map
        (fun d => d.all_ingredients_vector.getD [])
    let similarities := cover_embeddings.map (fun emb => dot query_emb emb)
    let top_indices := (lastSlice (argsort similarities) hybrid_top_k).reverse
    let hybrid_results := top_indices.filterMap (fun i => cover_results.get? i)
    ((hybrid_results.map stripVector).take num_results, 1)

/-- `retrieval.es_cover_then_hybrid_search`: cover search over the lexical
candidate pool, then the hybrid rerank stage. -/
def es_cover_then_hybrid_search (candidates : List Doc) (query : String)
    (query_emb : List Int) (num_results : Nat) (max_time : Option Int)
    (hybrid_top_k : Nat) (candidate_pool_size : Nat) : List Doc × Nat :=
  let cover_results := es_cover_ingredients_search candidates query candidate_pool_size max_time
  hybridStage cover_results query_emb hybrid_top_k num_results

/-- `re.search(r'\[.*\]', content, re.DOTALL)`: with the greedy `.*` and
DOTALL this matches from the first opening bracket to the last closing
bracket of the whole text, provided the closing bracket comes after the
opening one; the matched group's characters are returned. -/
def extractBracket (content : String) : Option (List Char) :=
  let cs := content.toList
  match cs.findIdx? (fun c => c = '['), cs.reverse.findIdx? (fun c => c = ']') with
  | some i, some jr =>
    let j := cs.length - 1 - jr
    if i < j then some ((cs.drop i).take (j - i + 1)) else none
  | _, _ => none

/-- JSON insignificant whitespace. -/
def skipWs (cs : List Char) : List Char :=
  cs.dropWhile (fun c => c = ' ' || c = '\t' || c = '\n' || c = '\r')

/-- Scan a JSON string literal body up to its closing quote; escape
sequences are outside the modelled domain (`none`). -/
def parseStrLit : List Char → List Char → Option (String × List Char)
  | [], _ => none
  | c :: rest, acc =>
    if c = '"' then some (String.mk acc.reverse, rest)
    else if c = '\\' then none
    else parseStrLit rest (c :: acc)

/-- Elements of a JSON array of strings, after the opening bracket and the
first element's leading whitespace; `fuel` dominates the remaining input
length, so exhaustion is unreachable from `jsonParseStrList`. -/
def parseElems : Nat → List Char → List String → Option (List String)
  | 0, _, _ => none
  | fuel + 1, cs, acc =>
    match cs with
    | '"' :: rest =>
      match parseStrLit rest [] with
      | some (s, rest2) =>
        match skipWs rest2 with
        | ',' :: rest4 => parseElems fuel (skipWs rest4) (s :: acc)
        | ']' :: rest5 => if skipWs rest5 = [] then some (s :: acc).reverse else none
        | _ => none
      | none => none
    | _ => none

/-- Model of `json.loads` on the adapter's expected output shape, a JSON
array of names (strings): `none` models a raised `JSONDecodeError` as well
as content outside the modelled domain. The whole input must be consumed,
as `json.loads` requires. -/
def jsonParseStrList (g : List Char) : Option (List String) :=
  match skipWs g with
  | '[' :: rest =>
    match skipWs rest with
    | ']' :: rest3 => if skipWs rest3 = [] then some [] else none
    | rest2 => parseElems (rest2.length + 1) rest2 []
  | _ => none

/-- Line 198 of `retrieval.rerank_with_llm` (and line 89 of
`old_rag.rerank_with_llm`):
`[doc for name in ranked_names for doc in candidates if doc['recipe_name'] == name]`. -/
def rankedDocs (ranked_names : List String) (candidates : List Doc) : List Doc :=
  ranked_names.flatMap (fun name => candidates.filter (fun d => d.recipe_name = name))

/-- `retrieval.rerank_with_llm`: optional time filter, then one chat-oracle
call whose response text is `content`, then bracket extraction and JSON
parsing. A malformed bracketed payload raises (`Except.error`); a missing
bracket falls back to the (filtered) candidates. The second component
counts chat-oracle calls: the call is made before any parsing, on every
input, including the empty candidate list. -/
def rerank_with_llm_es (candidates : List Doc) (max_time : Option Int)
    (content : String) : Except String (List Doc) × Nat :=
  let cands := filter_by_max_time candidates max_time
  let result : Except String (List Doc) :=
    match extractBracket content with
    | some g =>
      match jsonParseStrList g with
      | some ranked_names => .ok (rankedDocs ranked_names cands)
      | none => .error "json.decoder.JSONDecodeError"
    | none => .ok cands
  (result, 1)

/-- `old_rag.rerank_with_llm`: short-circuits the empty candidate list
before building the prompt (zero oracle calls), and wraps the JSON parse
and the name-mapping in `try/except`, falling back to the input order on
any parse failure. -/
def rerank_with_llm_old (candidates : List Doc) (content : String) :
    List Doc × Nat :=
  if candidates = [] then ([], 0)
  else
    match extractBracket content with
    | some g =>
      match jsonParseStrList g with
      | some ranked_names => (rankedDocs ranked_names candidates, 1)
      | none => (candidates, 1)
    | none => (candidates, 1)

/-- The retrieval stage reached by the dispatcher. -/
inductive Stage where
  | cover
  | hybrid
  | coverHybrid
deriving DecidableEq, Repr

/-- The retrieval-stage invocation a pipeline run performs: which stage,
with which result count and time budget. -/
structure RetrievalCall where
  stage : Stage
  num_results : Nat
  max_time : Option Int
deriving DecidableEq, Repr

/-- The retrieval invocation of `rag.es_best_rag_with_rerank`: it calls
`es_cover_then_hybrid_search(query, num_results=num_results, max_time=max_time)`
with its own defaults `num_results=5`, `max_time=None`. -/
def es_best_rag_retrieval_call (num_results : Nat := 5)
    (max_time : Option Int := none) : RetrievalCall :=
  ⟨.coverHybrid, num_results, max_time⟩

/-- The dispatcher `rag.rag(query, model, approach)`: its signature carries
no `num_results` and no `max_time`; each recognized approach invokes its
retrieval stage with the literal `num_results=5` and no `max_time` argument
(so the stage's default `None` applies), and `best` delegates to
`es_best_rag_with_rerank` with that function's defaults. -/
def rag_dispatch (approach : String) : Except String RetrievalCall :=
  if approach = "best" then .ok es_best_rag_retrieval_call
  else if approach = "cover" then .ok ⟨.cover, 5, none⟩
  else if approach = "hybrid" then .ok ⟨.hybrid, 5, none⟩
  else if approach = "cover_hybrid" then .ok ⟨.coverHybrid, 5, none⟩
  else .error "Unknown approach"

/-- A document with both time fields absent from the dict. -/
def dPlain : Doc :=
  { recipe_name := "plain pie", all_ingredients := some "flour, butter" }

/-- A document whose prep-time field holds a string that `int` cannot
parse. -/
def dBadTime : Doc :=
  { recipe_name := "slow stew", all_ingredients := some "beef"
    prep_time_minutes := some (.str "unknown")
    cook_time_minutes := some (.num 10) }

/-- A candidate without a stored embedding. -/
def docNoVec : Doc :=
  { recipe_name := "alpha" }

/-- A candidate with a stored embedding. -/
def docVec : Doc :=
  { recipe_name := "beta", all_ingredients_vector := some [5] }

/-- A candidate named `A`. -/
def docA : Doc :=
  { recipe_name := "A" }

/-- A candidate named `B`. -/
def docB : Doc :=
  { recipe_name := "B" }

/-- Cover-loop example documents, after the spec's worked example. -/
def dShrimpGarlic : Doc :=
  { id := some "1", recipe_name := "r1", all_ingredients := some "shrimp, garlic" }

/-- Second worked-example document. -/
def dRiceButter : Doc :=
  { id := some "2", recipe_name := "r2", all_ingredients := some "rice, butter" }

/-- Third worked-example document, covering both query tokens. -/
def dShrimpRiceLime : Doc :=
  { id := some "3", recipe_name := "r3", all_ingredients := some "shrimp, rice, lime" }

/-- Scan invariant of `findBestAux`: either no candidate strictly beats the
running best and the accumulator is returned unchanged, or the returned
candidate is the first one attaining the final (strictly improved) overlap:
everything scanned before it has strictly smaller overlap, everything after
it has overlap at most the final one. -/
theorem findBestAux_cases (uncovered : Finset String) (docs : List Doc) :
    ∀ (best : Option Doc) (b : Nat),
      (findBestAux uncovered best b docs = (best, b) ∧
        ∀ e ∈ docs, overlap uncovered e ≤ b) ∨
      (∃ d pre post,
        findBestAux uncovered best b docs = (some d, overlap uncovered d) ∧
        b < overlap uncovered d ∧
        docs = pre ++ d :: post ∧
        (∀ e ∈ pre, overlap uncovered e < overlap uncovered d) ∧
        (∀ e ∈ post, overlap uncovered e ≤ overlap uncovered d)) := by
  induction docs with
  | nil =>
    intro best b
    exact Or.inl ⟨rfl, by simp⟩
  | cons x rest ih =>
    intro best b
    by_cases hx : b < overlap uncovered x
    · rcases ih (some x) (overlap uncovered x) with ⟨heq, hall⟩ |
        ⟨d, pre, post, heq, hlt, hdecomp, hpre, hpost⟩
      · refine Or.inr ⟨x, [], rest, ?_, hx, by simp, by simp, hall⟩
        simp [findBestAux, hx, heq]
      · refine Or.inr ⟨d, x :: pre, post, ?_, lt_trans hx hlt, by simp [hdecomp], ?_, hpost⟩
        · simp [findBestAux, hx, heq]
        · intro e he
          rcases List.mem_cons.mp he with rfl | he
          · exact hlt
          · exact hpre e he
    · rcases ih best b with ⟨heq, hall⟩ |
        ⟨d, pre, post, heq, hlt, hdecomp, hpre, hpost⟩
      · refine Or.inl ⟨by simp [findBestAux, hx, heq], ?_⟩
        intro e he
        rcases List.mem_cons.mp he with rfl | he
        · exact Nat.le_of_not_lt hx
        · exact hall e he
      · refine Or.inr ⟨d, x :: pre, post, ?_, hlt, by simp [hdecomp], ?_, hpost⟩
        · simp [findBestAux, hx, heq]
        · intro e he
          rcases List.mem_cons.mp he with rfl | he
          · exact lt_of_le_of_lt (Nat.le_of_not_lt hx) hlt
          · exact hpre e he

/-- A successful round scan returns the first candidate attaining the
maximal overlap, which is positive. -/
theorem findBest_some (uncovered : Finset String) (docs : List Doc)
    (d : Doc) (bo : Nat) (h : findBest uncovered docs = (some d, bo)) :
    bo = overlap uncovered d ∧ 0 < bo ∧
    ∃ pre post, docs = pre ++ d :: post ∧
      (∀ e ∈ pre, overlap uncovered e < bo) ∧
      (∀ e ∈ docs, overlap uncovered e ≤ bo) := by
  rcases findBestAux_cases uncovered docs none 0 with ⟨heq, -⟩ |
    ⟨d', pre, post, heq, hlt, hdecomp, hpre, hpost⟩
  · rw [findBest, heq] at h
    simp at h
  · rw [findBest, heq] at h
    injection h with h1 h2
    injection h1 with h1
    subst h1
    subst h2
    refine ⟨rfl, hlt, pre, post, hdecomp, hpre, ?_⟩
    intro e he
    rw [hdecomp] at he
    rcases List.mem_append.mp he with hin | hin
    · exact le_of_lt (hpre e hin)
    · rcases List.mem_cons.mp hin with rfl | hin
      · exact le_refl _
      · exact hpost e hin

/-- A round scan that finds no best candidate means every candidate has
zero overlap with the uncovered tokens. -/
theorem findBest_none (uncovered : Finset String) (docs : List Doc)
    (bo : Nat) (h : findBest uncovered docs = (none, bo)) :
    ∀ e ∈ docs, overlap uncovered e = 0 := by
  rcases findBestAux_cases uncovered docs none 0 with ⟨heq, hall⟩ |
    ⟨d', pre, post, heq, -, -, -, -⟩
  · rw [findBest, heq] at h
    injection h with h1 h2
    subst h2
    intro e he
    exact Nat.le_zero.mp (hall e he)
  · rw [findBest, heq] at h
    simp at h

/-- `docs.remove(best_doc)` keeps a subset of the pool. -/
theorem removeFirst_subset (d : Doc) (l : List Doc) : ∀ e ∈ removeFirst d l, e ∈ l := by
  induction l with
  | nil => simp [removeFirst]
  | cons x xs ih =>
    intro e he
    by_cases hx : x = d
    · simp [removeFirst, hx] at he
      exact List.mem_cons_of_mem _ he
    · simp only [removeFirst, if_neg hx] at he
      rcases List.mem_cons.mp he with rfl | he
      · exact List.mem_cons_self _ _
      · exact List.mem_cons_of_mem _ (ih e he)

/-- Characterization of one selecting iteration of the cover loop: the
selected head has strictly positive overlap, attains the maximal overlap
over the whole pool, is the first such candidate in scan order, and the
remaining selection is the loop run on the shrunken uncovered set and the
pool with the selected document removed. -/
theorem coverLoop_cons (r : Nat) (uncovered : Finset String) (docs : List Doc)
    (d : Doc) (tail : List Doc)
    (h : coverLoop (r + 1) uncovered docs = d :: tail) :
    0 < overlap uncovered d ∧
    (∀ e ∈ docs, overlap uncovered e ≤ overlap uncovered d) ∧
    (∃ pre post, docs = pre ++ d :: post ∧
      ∀ e ∈ pre, overlap uncovered e < overlap uncovered d) ∧
    tail = coverLoop r (uncovered \ docIngredients d) (removeFirst d docs) := by
  rw [coverLoop] at h
  by_cases hc : uncovered = ∅ ∨ docs = []
  · rw [if_pos hc] at h
    exact absurd h (by simp)
  · rw [if_neg hc] at h
    rcases hfb : findBest uncovered docs with ⟨bd, bo⟩
    rw [hfb] at h
    cases bd with
    | none => exact absurd h (by simp)
    | some d' =>
      dsimp only at h
      by_cases hbo : 0 < bo
      · rw [if_pos hbo] at h
        injection h with h1 h2
        obtain ⟨hbo_eq, hpos, pre, post, hdec, hpre, hall⟩ :=
          findBest_some uncovered docs d' bo hfb
        subst hbo_eq
        subst h1
        exact ⟨hpos, hall, ⟨pre, post, hdec, hpre⟩, h2.symm⟩
      · rw [if_neg hbo] at h
        exact absurd h (by simp)

/-- The cover loop selects at most as many documents as its remaining
capacity allows: at most `num_results` in total. -/
theorem coverLoop_length_le (r : Nat) :
    ∀ (uncovered : Finset String) (docs : List Doc),
      (coverLoop r uncovered docs).length ≤ r := by
  induction r with
  | zero =>
    intro u docs
    simp [coverLoop]
  | succ n ih =>
    intro u docs
    cases h : coverLoop (n + 1) u docs with
    | nil => simp
    | cons d tail =>
      obtain ⟨-, -, -, htail⟩ := coverLoop_cons n u docs d tail h
      have := ih (u \ docIngredients d) (removeFirst d docs)
      rw [← htail] at this
      simpa using Nat.succ_le_succ this

/-- Every selected document comes from the candidate pool. -/
theorem coverLoop_subset (r : Nat) :
    ∀ (uncovered : Finset String) (docs : List Doc),
      ∀ e ∈ coverLoop r uncovered docs, e ∈ docs := by
  induction r with
  | zero =>
    intro u docs e he
    simp [coverLoop] at he
  | succ n ih =>
    intro u docs e he
    cases h : coverLoop (n + 1) u docs with
    | nil => rw [h] at he; simp at he
    | cons d tail =>
      obtain ⟨-, -, ⟨pre, post, hdec, -⟩, htail⟩ := coverLoop_cons n u docs d tail h
      rw [h] at he
      rcases List.mem_cons.mp he with rfl | he
      · rw [hdec]
        exact List.mem_append.mpr (Or.inr (List.mem_cons_self _ _))
      · rw [htail] at he
        exact removeFirst_subset d docs e (ih _ _ e he)

/-- When no candidate has positive overlap with the uncovered tokens the
loop selects nothing. -/
theorem coverLoop_no_overlap (r : Nat) (uncovered : Finset String)
    (docs : List Doc) (hz : ∀ e ∈ docs, overlap uncovered e = 0) :
    coverLoop r uncovered docs = [] := by
  cases r with
  | zero => rfl
  | succ n =>
    cases h : coverLoop (n + 1) uncovered docs with
    | nil => rfl
    | cons d tail =>
      obtain ⟨hpos, -, ⟨pre, post, hdec, -⟩, -⟩ := coverLoop_cons n uncovered docs d tail h
      have hd : d ∈ docs := by
        rw [hdec]
        exact List.mem_append.mpr (Or.inr (List.mem_cons_self _ _))
      rw [hz d hd] at hpos
      exact absurd hpos (lt_irrefl 0)

/-- Positive overlap makes removing the document's tokens a strict shrink
of the uncovered set. -/
theorem sdiff_card_lt_of_overlap (uncovered : Finset String) (d : Doc)
    (h : 0 < overlap uncovered d) :
    (uncovered \ docIngredients d).card < uncovered.card := by
  obtain ⟨x, hx⟩ := Finset.card_pos.mp h
  obtain ⟨hxu, hxi⟩ := Finset.mem_inter.mp hx
  refine Finset.card_lt_card ⟨Finset.sdiff_subset, ?_⟩
  intro hsub
  have := hsub hxu
  rw [Finset.mem_sdiff] at this
  exact this.2 hxi

/-- The deduplication pass keeps a subset of its input. -/
theorem dedupeAux_subset (l : List Doc) :
    ∀ seen, ∀ d ∈ dedupeAux seen l, d ∈ l := by
  induction l with
  | nil => intro seen d hd; simp [dedupeAux] at hd
  | cons x rest ih =>
    intro seen d hd
    by_cases hk : keySeen (docKey x) seen
    · rw [dedupeAux, if_pos hk] at hd
      exact List.mem_cons_of_mem _ (ih seen d hd)
    · rw [dedupeAux, if_neg hk] at hd
      rcases List.mem_cons.mp hd with rfl | hd
      · exact List.mem_cons_self _ _
      · exact List.mem_cons_of_mem _ (ih _ d hd)

/-- The deduplication pass never lengthens its input. -/
theorem dedupeAux_length_le (l : List Doc) :
    ∀ seen, (dedupeAux seen l).length ≤ l.length := by
  induction l with
  | nil => intro seen; simp [dedupeAux]
  | cons x rest ih =>
    intro seen
    by_cases hk : keySeen (docKey x) seen
    · rw [dedupeAux, if_pos hk]
      exact le_trans (ih seen) (Nat.le_succ _)
    · rw [dedupeAux, if_neg hk]
      simpa using ih (docKey x :: seen)

/-- After deduplication all identity keys are distinct, and none of them
was in the seen-set the pass started from. -/
theorem dedupeAux_keys (l : List Doc) :
    ∀ seen, ((dedupeAux seen l).map docKey).Nodup ∧
      ∀ d ∈ dedupeAux seen l, keySeen (docKey d) seen = false := by
  induction l with
  | nil => intro seen; simp [dedupeAux]
  | cons x rest ih =>
    intro seen
    by_cases hk : keySeen (docKey x) seen
    · rw [dedupeAux, if_pos hk]
      exact ih seen
    · rw [dedupeAux, if_neg hk]
      obtain ⟨hnd, hfresh⟩ := ih (docKey x :: seen)
      refine ⟨?_, ?_⟩
      · rw [List.map_cons, List.nodup_cons]
        refine ⟨?_, hnd⟩
        intro hmem
        obtain ⟨e, he, hke⟩ := List.mem_map.mp hmem
        have := hfresh e he
        rw [keySeen, List.any_cons] at this
        simp only [Bool.or_eq_false_iff] at this
        have hne := this.1
        rw [hke] at hne
        simp at hne
      · intro d hd
        rcases List.mem_cons.mp hd with rfl | hd
        · exact Bool.of_not_eq_true hk
        · have := hfresh d hd
          rw [keySeen, List.any_cons] at this
          simp only [Bool.or_eq_false_iff] at this
          exact this.2

/-- Membership in the time-filtered list is membership in the input with a
total time within the budget. -/
theorem mem_filter_time (d : Doc) (docs : List Doc) (m : Int)
    (h : d ∈ filter_by_max_time docs (some m)) : d ∈ docs ∧ total_time d ≤ m := by
  rw [filter_by_max_time] at h
  have := List.mem_filter.mp h
  exact ⟨this.1, by simpa using this.2⟩

/-- A document whose time conversion raises gets the sentinel total time. -/
theorem total_time_of_fail (d : Doc)
    (h : pyTimeField d.prep_time_minutes = none ∨ pyTimeField d.cook_time_minutes = none) :
    total_time d = 99999 := by
  rw [total_time, totalTimeCalc]
  rcases h with h | h
  · rw [h]; rfl
  · rw [h]
    cases pyTimeField d.prep_time_minutes <;> rfl

/-- A document with both time fields absent totals zero. -/
theorem total_time_of_missing (d : Doc)
    (h1 : d.prep_time_minutes = none) (h2 : d.cook_time_minutes = none) :
    total_time d = 0 := by
  rw [total_time, totalTimeCalc, h1, h2]
  rfl

/-- Stripping the embedding field does not change a document's identity
key. -/
theorem docKey_stripVector (d : Doc) : docKey (stripVector d) = docKey d := rfl

/-- `argsort` produces distinct indices. -/
theorem argsort_nodup (l : List Int) : (argsort l).Nodup :=
  ((List.perm_insertionSort _ _).nodup_iff).mpr (List.nodup_range _)

/-- Every index produced by `argsort` is a position of the input list. -/
theorem argsort_mem_lt (l : List Int) (i : Nat) (h : i ∈ argsort l) :
    i < l.length :=
  List.mem_range.mp ((List.perm_insertionSort _ _).mem_iff.mp h)

/-- The tail slice is a sublist. -/
theorem lastSlice_sublist (l : List Nat) (k : Nat) : (lastSlice l k).Sublist l := by
  rw [lastSlice]
  split
  · exact List.Sublist.refl l
  · exact List.drop_sublist _ _

/-- Looking up a list with distinct identity keys at distinct valid
positions yields documents with distinct keys. -/
theorem filterMap_get?_nodup_keys (idx : List Nat) :
    ∀ (l : List Doc), idx.Nodup → (∀ i ∈ idx, i < l.length) →
      (l.map docKey).Nodup →
      ((idx.filterMap (fun i => l.get? i)).map docKey).Nodup := by
  induction idx with
  | nil => intro l _ _ _; simp
  | cons i rest ih =>
    intro l hnd hb hk
    have hi : i < l.length := hb i (List.mem_cons_self _ _)
    obtain ⟨hni, hndr⟩ := List.nodup_cons.mp hnd
    have hrec := ih l hndr (fun j hj => hb j (List.mem_cons_of_mem _ hj)) hk
    simp only [List.filterMap_cons, List.get?_eq_get hi]
    rw [List.map_cons]
    refine List.nodup_cons.mpr ⟨?_, hrec⟩
    intro hmem
    obtain ⟨e, he, hkey⟩ := List.mem_map.mp hmem
    obtain ⟨j, hj, hje⟩ := List.mem_filterMap.mp he
    have hjlt : j < l.length := hb j (List.mem_cons_of_mem _ hj)
    rw [List.get?_eq_get hjlt] at hje
    injection hje with hje
    have hkeq : (l.map docKey).get? j = (l.map docKey).get? i := by
    
      rw [List.get?_map, List.get?_map, List.get?_eq_get hi, List.get?_eq_get hjlt]
      have h3 : docKey (l.get ⟨j, hjlt⟩) = docKey (l.get ⟨i, hi⟩) := by
        rw [hje]; exact hkey
      exact congrArg some h3
    have hij : j = i :=
      List.get?_inj (by simpa using hjlt) hk hkeq
    exact hni (hij ▸ hj)

/-- Unfolding of the non-empty branch of the hybrid rerank stage. -/
theorem hybridStage_eq (cover_results : List Doc) (query_emb : List Int)
    (k n : Nat) (hc : ¬ cover_results = []) :
    hybridStage cover_results query_emb k n =
      ((((lastSlice
            (argsort
              (((cover_results.filter (fun d => d.all_ingredients_vector.isSome)).map
                  (fun d => d.all_ingredients_vector.getD [])).map
                (fun emb => dot query_emb emb)))
            k).reverse.filterMap (fun i => cover_results.get? i)).map stripVector).take n,
        1) := by
  rw [hybridStage, if_neg hc]

/-- Distinct valid index selection followed by embedding-stripping and a
prefix cut preserves distinctness of identity keys. -/
theorem take_strip_nodup_keys (idx : List Nat) (l : List Doc) (n : Nat)
    (hnd : idx.Nodup) (hb : ∀ i ∈ idx, i < l.length)
    (hk : (l.map docKey).Nodup) :
    ((((idx.filterMap (fun i => l.get? i)).map stripVector).take n).map docKey).Nodup := by
  have h1 := filterMap_get?_nodup_keys idx l hnd hb hk
  have h2 : ((idx.filterMap (fun i => l.get? i)).map stripVector).map docKey
      = (idx.filterMap (fun i => l.get? i)).map docKey := by
    rw [List.map_map]
    simp [Function.comp_def, docKey_stripVector]
  have h3 : ((((idx.filterMap (fun i => l.get? i)).map stripVector).take n).map docKey).Sublist
      (((idx.filterMap (fun i => l.get? i)).map stripVector).map docKey) :=
    (List.take_sublist n _).map docKey
  rw [h2] at h3
  exact h3.nodup h1

/-- The hybrid rerank stage emits documents with pairwise-distinct identity
keys whenever its input pool has pairwise-distinct keys. -/
theorem hybridStage_nodup_keys (cover_results : List Doc) (query_emb : List Int)
    (k n : Nat) (h : (cover_results.map docKey).Nodup) :
    (((hybridStage cover_results query_emb k n).1).map docKey).Nodup := by
  by_cases hc : cover_results = []
  · simp [hybridStage, hc]
  · rw [hybridStage_eq cover_results query_emb k n hc]
    apply take_strip_nodup_keys _ _ _ ?_ ?_ h
    · exact List.nodup_reverse.mpr ((lastSlice_sublist _ _).nodup (argsort_nodup _))
    · intro i hi
      have hi2 := (lastSlice_sublist _ _).subset (List.mem_reverse.mp hi)
      have hi3 := argsort_mem_lt _ i hi2
      rw [List.length_map, List.length_map] at hi3
      exact lt_of_lt_of_le hi3 (List.length_filter_le _ _)

/-- The hybrid rerank stage returns at most `num_results` documents. -/
theorem hybridStage_length_le (cover_results : List Doc) (query_emb : List Int)
    (k n : Nat) : ((hybridStage cover_results query_emb k n).1).length ≤ n := by
  by_cases hc : cover_results = []
  · simp [hybridStage, hc]
  · rw [hybridStage_eq cover_results query_emb k n hc]
    simpa using Nat.min_le_left n _

/-- Unfolding of the cover search pipeline stage. -/
theorem es_cover_eq (candidates : List Doc) (query : String) (n : Nat)
    (m : Option Int) :
    es_cover_ingredients_search candidates query n m =
      deduplicate_results (coverLoop n (tokenize query)
        (match m with
          | none => candidates
          | some mm => filter_by_max_time candidates (some mm))) := rfl

/-- The cover stage output has pairwise-distinct identity keys. -/
theorem es_cover_nodup_keys (candidates : List Doc) (query : String) (n : Nat)
    (m : Option Int) :
    ((es_cover_ingredients_search candidates query n m).map docKey).Nodup := by
  rw [es_cover_eq, deduplicate_results]
  exact (dedupeAux_keys _ _).1

/-- The cover stage returns at most `num_results` documents. -/
theorem es_cover_length_le (candidates : List Doc) (query : String) (n : Nat)
    (m : Option Int) :
    (es_cover_ingredients_search candidates query n m).length ≤ n := by
  rw [es_cover_eq, deduplicate_results]
  exact le_trans (dedupeAux_length_le _ _) (coverLoop_length_le _ _ _)

/-- Every document the cover stage returns under a finite budget came
through the time filter. -/
theorem es_cover_mem_time (candidates : List Doc) (query : String) (n : Nat)
    (m : Int) (d : Doc)
    (h : d ∈ es_cover_ingredients_search candidates query n (some m)) :
    total_time d ≤ m := by
  rw [es_cover_eq, deduplicate_results] at h
  have h1 := dedupeAux_subset _ _ _ h
  have h2 := coverLoop_subset _ _ _ _ h1
  exact (mem_filter_time d candidates m h2).2

/-- Membership characterization of the oracle-order name mapping. -/
theorem rankedDocs_mem (names : List String) (cands : List Doc) (d : Doc)
    (h : d ∈ rankedDocs names cands) : d ∈ cands ∧ d.recipe_name ∈ names := by
  rw [rankedDocs] at h
  obtain ⟨nm, hnm, hd⟩ := List.mem_flatMap.mp h
  obtain ⟨hdc, hname⟩ := List.mem_filter.mp hd
  refine ⟨hdc, ?_⟩
  have : d.recipe_name = nm := by simpa using hname
  exact this ▸ hnm

/-- A name the oracle returns that matches no candidate contributes
nothing: dropping it does not change the mapped result. -/
theorem rankedDocs_unmatched (cands : List Doc) (nm : String)
    (pre post : List String) (h : ∀ d ∈ cands, d.recipe_name ≠ nm) :
    rankedDocs (pre ++ nm :: post) cands = rankedDocs (pre ++ post) cands := by
  rw [rankedDocs, rankedDocs, List.flatMap_append, List.flatMap_append,
    List.flatMap_cons]
  have hnil : cands.filter (fun d => d.recipe_name = nm) = [] :=
    List.filter_eq_nil.mpr (fun d hd => by simpa using h d hd)
  rw [hnil, List.nil_append]

/-- On a successfully parsed oracle response the adapter returns exactly
the name-mapped candidates. -/
theorem rerank_ok_eq (cands : List Doc) (content : String) (g : List Char)
    (names : List String) (h1 : extractBracket content = some g)
    (h2 : jsonParseStrList g = some names) :
    (rerank_with_llm_es cands none content).1 = .ok (rankedDocs names cands) := by
  rw [rerank_with_llm_es, h1]
  dsimp only
  rw [h2]
  rfl

/-- C1, counterexample: the time filter with budget 60 keeps a document
whose two time fields are absent from the dict (they default to 0, not to
an over-budget value), and the filter with budget 99999 keeps a document
whose prep-time string is unparsable (the raised conversion error yields
the finite sentinel 99999, not an effectively infinite total). The claim
says both documents are excluded under every finite budget. -/
theorem c1_time_filter_counterexample :
    filter_by_max_time [dPlain] (some 60) = [dPlain] ∧
    dPlain.prep_time_minutes = none ∧ dPlain.cook_time_minutes = none ∧
    filter_by_max_time [dBadTime] (some 99999) = [dBadTime] ∧
    pyTimeField dBadTime.prep_time_minutes = none := by
  refine ⟨by decide, rfl, rfl, by decide, by decide⟩

/-- C1, amended: a document whose present time field fails integer
conversion receives the sentinel total 99999 and is excluded by the time
filter — and hence never returned by the coverage search — for every
budget strictly below 99999; a document whose time fields are missing
defaults to total 0 and passes every non-negative budget. -/
theorem c1_time_filter_amended :
    (∀ (docs : List Doc) (d : Doc) (m : Int),
      (pyTimeField d.prep_time_minutes = none ∨ pyTimeField d.cook_time_minutes = none) →
      m < 99999 → d ∉ filter_by_max_time docs (some m)) ∧
    (∀ (docs : List Doc) (d : Doc) (m : Int),
      d.prep_time_minutes = none → d.cook_time_minutes = none → 0 ≤ m →
      d ∈ docs → d ∈ filter_by_max_time docs (some m)) ∧
    (∀ (candidates : List Doc) (query : String) (n : Nat) (m : Int) (d : Doc),
      (pyTimeField d.prep_time_minutes = none ∨ pyTimeField d.cook_time_minutes = none) →
      m < 99999 → d ∉ es_cover_ingredients_search candidates query n (some m)) := by
  refine ⟨?_, ?_, ?_⟩
  · intro docs d m hfail hm hmem
    have := (mem_filter_time d docs m hmem).2
    rw [total_time_of_fail d hfail] at this
    omega
  · intro docs d m h1 h2 hm hd
    rw [filter_by_max_time]
    refine List.mem_filter.mpr ⟨hd, ?_⟩
    show decide (total_time d ≤ m) = true
    rw [total_time_of_missing d h1 h2]
    exact decide_eq_true hm
  · intro candidates query n m d hfail hm hmem
    have := es_cover_mem_time candidates query n m d hmem
    rw [total_time_of_fail d hfail] at this
    omega

/-- Witness for C1 amended at concrete inputs: the unparsable-time document
is excluded under budget 60, while the missing-fields document passes
budget 0. -/
theorem c1_time_filter_amended_witness :
    dBadTime ∉ filter_by_max_time [dBadTime] (some 60) ∧
    dPlain ∈ filter_by_max_time [dPlain] (some 0) := by
  constructor
  · exact c1_time_filter_amended.1 [dBadTime] dBadTime 60 (Or.inl (by decide)) (by decide)
  · exact c1_time_filter_amended.2.1 [dPlain] dPlain 0 rfl rfl (by decide) (by decide)

/-- C2: evaluation at a pool whose first candidate lacks an embedding.
The only similarity score, 5, is produced by the embedding of `docVec`,
yet the stage returns `docNoVec` — the candidate without any stored
embedding — because the top index into the filtered similarity list is
applied to the unfiltered candidate list. This contradicts the claim that
embedding-less candidates are skipped and that the returned documents are
the ones whose embeddings produced the top scores. -/
theorem c2_hybrid_misalignment_eval :
    (hybridStage [docNoVec, docVec] [1] 1 5).1 = [docNoVec] ∧
    docNoVec.all_ingredients_vector = none ∧
    docVec.all_ingredients_vector = some [5] ∧
    dot [1] [5] = 5 := ⟨rfl, rfl, rfl, rfl⟩

/-- C3: whenever an iteration of the greedy cover loop selects a document,
that document has strictly positive overlap with the uncovered tokens,
attains the maximal overlap over the remaining pool, and every candidate
placed before it in the pool's scan order has strictly smaller overlap —
so ties in the maximal overlap are broken by first position in the input
pool, which is never re-sorted. -/
theorem c3_cover_selects_first_max (r : Nat) (uncovered : Finset String)
    (docs : List Doc) (d : Doc) (tail : List Doc)
    (h : coverLoop (r + 1) uncovered docs = d :: tail) :
    0 < overlap uncovered d ∧
    (∀ e ∈ docs, overlap uncovered e ≤ overlap uncovered d) ∧
    (∃ pre post, docs = pre ++ d :: post ∧
      ∀ e ∈ pre, overlap uncovered e < overlap uncovered d) := by
  obtain ⟨h1, h2, h3, -⟩ := coverLoop_cons r uncovered docs d tail h
  exact ⟨h1, h2, h3⟩

/-- Witness for C3 at the spec's worked example: the loop selects the
document covering both query tokens, which has positive and maximal
overlap in the pool. -/
theorem c3_cover_selects_first_max_witness :
    0 < overlap (tokenize "shrimp, rice") dShrimpRiceLime ∧
    ∀ e ∈ [dShrimpGarlic, dRiceButter, dShrimpRiceLime],
      overlap (tokenize "shrimp, rice") e ≤
        overlap (tokenize "shrimp, rice") dShrimpRiceLime := by
  have h := c3_cover_selects_first_max 4 (tokenize "shrimp, rice")
    [dShrimpGarlic, dRiceButter, dShrimpRiceLime] dShrimpRiceLime [] (by decide)
  exact ⟨h.1, h.2.1⟩

/-- C4: the greedy cover loop returns at most `num_results` documents;
whenever it selects a document the uncovered token set only shrinks, and
strictly shrinks in cardinality; and if no candidate has positive overlap
the loop selects nothing (its sole early termination besides exhausting
capacity or candidates). -/
theorem c4_cover_monotone_bounded (num_results : Nat)
    (uncovered : Finset String) (docs : List Doc) :
    (coverLoop num_results uncovered docs).length ≤ num_results ∧
    (∀ d tail, coverLoop num_results uncovered docs = d :: tail →
      (uncovered \ docIngredients d) ⊆ uncovered ∧
      (uncovered \ docIngredients d).card < uncovered.card) ∧
    ((∀ e ∈ docs, overlap uncovered e = 0) →
      coverLoop num_results uncovered docs = []) := by
  refine ⟨coverLoop_length_le _ _ _, ?_, coverLoop_no_overlap _ _ _⟩
  intro d tail h
  cases num_results with
  | zero => exact absurd h (by simp [coverLoop])
  | succ n =>
    obtain ⟨hpos, -, -, -⟩ := coverLoop_cons n uncovered docs d tail h
    exact ⟨Finset.sdiff_subset, sdiff_card_lt_of_overlap uncovered d hpos⟩

/-- Witness for C4 at the spec's worked example: the selection step
strictly shrinks the uncovered token set. -/
theorem c4_cover_monotone_bounded_witness :
    coverLoop 5 (tokenize "shrimp, rice")
      [dShrimpGarlic, dRiceButter, dShrimpRiceLime] = [dShrimpRiceLime] ∧
    ((tokenize "shrimp, rice") \ docIngredients dShrimpRiceLime).card <
      (tokenize "shrimp, rice").card := by
  have heq : coverLoop 5 (tokenize "shrimp, rice")
      [dShrimpGarlic, dRiceButter, dShrimpRiceLime] = [dShrimpRiceLime] := by decide
  exact ⟨heq, ((c4_cover_monotone_bounded 5 (tokenize "shrimp, rice")
    [dShrimpGarlic, dRiceButter, dShrimpRiceLime]).2.1 dShrimpRiceLime [] heq).2⟩

/-- C5: evaluation of the tokenizer. A comma with no surrounding
whitespace does not separate tokens: the character-stripping regex deletes
the comma before the comma-to-space replacement can run, so
"shrimp,rice" collapses to the single token "shrimprice" instead of the
claimed two tokens. With a space after the comma the claimed behavior
holds, and empty input yields the empty set. -/
theorem c5_tokenize_comma_eval :
    tokenize "shrimp,rice" = {"shrimprice"} ∧
    tokenize "shrimp, rice" = {"shrimp", "rice"} ∧
    tokenize "" = (∅ : Finset String) :=
  ⟨by decide, by decide, by decide⟩

/-- C6: evaluation at an oracle response whose bracketed content is not
valid JSON. The Elasticsearch-pipeline adapter raises a JSON decode error
(modelled as `Except.error`) instead of falling back, while the sibling
`old_rag` adapter — and the spec — return the input candidates
unchanged. -/
theorem c6_malformed_bracket_eval :
    (rerank_with_llm_es [docA] none "here: [not valid json]").1 =
      Except.error "json.decoder.JSONDecodeError" ∧
    (rerank_with_llm_old [docA] "here: [not valid json]").1 = [docA] :=
  ⟨rfl, rfl⟩

/-- C7: evaluation at the empty candidate list. The Elasticsearch-pipeline
external rerank adapter still performs one chat-oracle call, while the
`old_rag` adapter short-circuits with zero calls as the claim states, and
the hybrid rerank stage short-circuits with zero embedding-oracle
calls. -/
theorem c7_empty_candidates_oracle_calls :
    (rerank_with_llm_es [] none "ok").2 = 1 ∧
    (rerank_with_llm_old [] "ok").2 = 0 ∧
    (hybridStage [] [1] 5 5).2 = 0 :=
  ⟨rfl, rfl, rfl⟩

/-- C8: when the oracle response parses to a list of names, the adapter
returns exactly the name-mapped candidates: every returned document is a
candidate whose name the oracle mentioned; an oracle name matching no
candidate contributes nothing and can be dropped without changing the
result; and on the spec's example the oracle order [B, A] is reproduced. -/
theorem c8_rerank_mapping (content : String) (g : List Char)
    (names : List String) (cands : List Doc)
    (h1 : extractBracket content = some g)
    (h2 : jsonParseStrList g = some names) :
    (rerank_with_llm_es cands none content).1 = .ok (rankedDocs names cands) ∧
    (∀ d ∈ rankedDocs names cands, d ∈ cands ∧ d.recipe_name ∈ names) ∧
    (∀ nm pre post, names = pre ++ nm :: post →
      (∀ d ∈ cands, d.recipe_name ≠ nm) →
      rankedDocs names cands = rankedDocs (pre ++ post) cands) ∧
    rankedDocs ["B", "A"] [docA, docB] = [docB, docA] := by
  refine ⟨rerank_ok_eq cands content g names h1 h2,
    fun d hd => rankedDocs_mem names cands d hd, ?_, rfl⟩
  intro nm pre post hn hnone
  subst hn
  exact rankedDocs_unmatched cands nm pre post hnone

/-- Witness for C8 at the spec's mapping example. -/
theorem c8_rerank_mapping_witness :
    (rerank_with_llm_es [docA, docB] none "[\"B\", \"A\"]").1 =
      Except.ok [docB, docA] := by
  have h := c8_rerank_mapping "[\"B\", \"A\"]" ("[\"B\", \"A\"]".toList)
    ["B", "A"] [docA, docB] (by decide) (by decide)
  rw [h.1]
  rfl

/-- C9, counterexample: when the oracle repeats a name, the external
rerank adapter emits the matching candidate twice — the output contains
two documents with the same identity key and exceeds the candidate count,
so the no-duplicates / bounded-size invariant does not hold for this
stage. -/
theorem c9_rerank_duplicates_counterexample :
    (rerank_with_llm_es [docA] none "[\"A\", \"A\"]").1 =
      Except.ok [docA, docA] ∧
    ¬ (([docA, docA].map docKey).Nodup) ∧
    ([docA] : List Doc).length < [docA, docA].length := by
  refine ⟨rfl, by decide, by decide⟩

/-- C9, amended: the no-duplicate-identity-keys and bounded-size invariant
holds for the deduplication pass, the coverage selector, and the hybrid
reranker (whose input pool inside the combined pipeline is deduplicated),
but not for the external rerank adapter. -/
theorem c9_pool_invariant_amended :
    (∀ results : List Doc, ((deduplicate_results results).map docKey).Nodup) ∧
    (∀ (candidates : List Doc) (query : String) (n : Nat) (m : Option Int),
      ((es_cover_ingredients_search candidates query n m).map docKey).Nodup ∧
      (es_cover_ingredients_search candidates query n m).length ≤ n) ∧
    (∀ (cover_results : List Doc) (query_emb : List Int) (k n : Nat),
      ((cover_results.map docKey).Nodup →
        (((hybridStage cover_results query_emb k n).1).map docKey).Nodup) ∧
      ((hybridStage cover_results query_emb k n).1).length ≤ n) ∧
    (∀ (candidates : List Doc) (query : String) (query_emb : List Int)
      (n : Nat) (m : Option Int) (k ps : Nat),
      (((es_cover_then_hybrid_search candidates query query_emb n m k ps).1).map docKey).Nodup ∧
      ((es_cover_then_hybrid_search candidates query query_emb n m k ps).1).length ≤ n) := by
  refine ⟨?_, ?_, ?_, ?_⟩
  · intro results
    rw [deduplicate_results]
    exact (dedupeAux_keys _ _).1
  · intro c q n m
    exact ⟨es_cover_nodup_keys c q n m, es_cover_length_le c q n m⟩
  · intro cr e k n
    exact ⟨fun h => hybridStage_nodup_keys cr e k n h, hybridStage_length_le cr e k n⟩
  · intro c q e n m k ps
    rw [es_cover_then_hybrid_search]
    exact ⟨hybridStage_nodup_keys _ _ _ _ (es_cover_nodup_keys c q ps m),
      hybridStage_length_le _ _ _ _⟩

/-- Witness for C9 amended: the hybrid stage on a concrete one-document
pool with distinct keys yields distinct keys. -/
theorem c9_pool_invariant_amended_witness :
    (([docVec].map docKey).Nodup) ∧
    (((hybridStage [docVec] [1] 5 5).1).map docKey).Nodup := by
  have h1 : ([docVec].map docKey).Nodup := by decide
  exact ⟨h1, (c9_pool_invariant_amended.2.2.1 [docVec] [1] 5 5).1 h1⟩

/-- C10: every recognized strategy name reaches its retrieval stage with
the fixed result count 5 and no time budget; the dispatcher's signature
admits no caller-supplied result count or budget, so these are the only
values the stages can receive through it. -/
theorem c10_dispatch_fixed_params :
    rag_dispatch "cover" = Except.ok ⟨Stage.cover, 5, none⟩ ∧
    rag_dispatch "hybrid" = Except.ok ⟨Stage.hybrid, 5, none⟩ ∧
    rag_dispatch "cover_hybrid" = Except.ok ⟨Stage.coverHybrid, 5, none⟩ ∧
    rag_dispatch "best" = Except.ok ⟨Stage.coverHybrid, 5, none⟩ :=
  ⟨rfl, rfl, rfl, rfl⟩
